import Mathlib

/-!
# Verification of `list_installed_apps.py`

A shallow embedding of the macOS installed-application report script.
Python strings are modelled as Lean `String` (lists of characters); the
Python string operations used by the script (`lower`, `in`, `startswith`,
`endswith`, `replace`) are modelled by executable functions over the
underlying character lists, matching Python semantics on the ASCII data
the script manipulates.
-/

/-- Prefix test: `charListStarts n h` is true iff the list `h` starts with the list `n`. -/
def charListStarts : List Char → List Char → Bool
  | [], _ => true
  | _ :: _, [] => false
  | a :: as, b :: bs => a == b && charListStarts as bs

/-- Occurrence test: `charListHas n h` is true iff `n` occurs as a contiguous
sublist of `h` (Python's `n in h` for strings). -/
def charListHas (needle : List Char) : List Char → Bool
  | [] => needle.isEmpty
  | c :: t => charListStarts needle (c :: t) || charListHas needle t

/-- Python `needle in hay` on strings. -/
def pyIn (needle hay : String) : Bool :=
  charListHas needle.data hay.data

/-- Python `s.startswith(p)`. -/
def pyStartsWith (s p : String) : Bool :=
  charListStarts p.data s.data

/-- Python `s.endswith(p)`. -/
def pyEndsWith (s p : String) : Bool :=
  charListStarts p.data.reverse s.data.reverse

/-- Python `s.lower()` (ASCII case folding, which coincides with Python on
the ASCII names this script handles). -/
def pyLower (s : String) : String :=
  ⟨s.data.map Char.toLower⟩

/-- Worker for `pyReplace`: scans the haystack left to right, replacing each
non-overlapping occurrence of `old` by `new`.  The fuel argument (initially
the haystack length) only makes the recursion structural; every step consumes
at least one character when `old` is nonempty, so the fuel never runs out. -/
def replaceAux (old new : List Char) : Nat → List Char → List Char
  | _, [] => []
  | 0, s => s
  | fuel + 1, c :: t =>
    if charListStarts old (c :: t) then
      new ++ replaceAux old new fuel ((c :: t).drop old.length)
    else
      c :: replaceAux old new fuel t

/-- Python `s.replace(old, new)` for nonempty `old` (the script only ever
replaces the nonempty pattern ".app"). -/
def pyReplace (s old new : String) : String :=
  if old.data.isEmpty then s
  else ⟨replaceAux old.data new.data s.data.length s.data⟩

/-! ## Classifier (`get_app_category`) -/

/-- The `special_cases` dict of `get_app_category`, as an association list in
source order (Python dicts preserve insertion order; keys are distinct so
order does not affect lookup). -/
def special_cases : List (String × String) :=
  [("Google Slides", "Productivity"),
   ("Google Docs", "Productivity"),
   ("Google Sheets", "Productivity"),
   ("Keynote", "Productivity"),
   ("Pages", "Productivity"),
   ("Numbers", "Productivity"),
   ("Obsidian", "Productivity"),
   ("OnyX", "Utilities"),
   ("SteerMouse", "Utilities"),
   ("Tabby", "Development"),
   ("Ubuntu", "Virtualization"),
   ("Yubico Authenticator", "Security & Privacy"),
   ("iStat Menus", "Utilities"),
   ("iStat Menus Helper", "Utilities"),
   ("iStat Menus Menubar", "Utilities"),
   ("Scam Copilot", "Security & Privacy"),
   ("Rectangle Pro", "Utilities"),
   ("AppCleaner", "Utilities"),
   ("Bartender 5", "Utilities"),
   ("ForkLift", "Utilities"),
   ("Swift Quit", "Utilities")]

/-- The `categories` dict of `get_app_category`: an ordered list of
(category, keywords) pairs, in source order. -/
def categoriesTable : List (String × List String) :=
  [("Development",
    ["Visual Studio Code", "Xcode", "Docker", "iTerm", "Python",
     "Developer", "IDE", "Terminal", "Code", "Git"]),
   ("Browsers & Internet",
    ["Chrome", "Firefox", "Safari", "Opera", "Edge", "Arc", "Browser"]),
   ("Security & Privacy",
    ["1Password", "Bitwarden", "VPN", "Antivirus", "Bitdefender",
     "Password", "Security", "Radio Silence", "Yubico", "Scam"]),
   ("Productivity",
    ["Office", "Docs", "Sheets", "Slides", "Notes", "Task",
     "Calendar", "Mail", "Presentation", "Document"]),
   ("Utilities",
    ["Rectangle", "Bartender", "AppCleaner", "ForkLift",
     "Utility", "Cleaner", "Manager", "Stats", "Monitor",
     "Helper", "Menu"]),
   ("Media & Creative",
    ["DaVinci", "Luminar", "Screen", "Spotify",
     "Music", "Photo", "Video", "Audio", "Creative", "Media"]),
   ("Cloud Storage",
    ["Google Drive", "Dropbox", "iCloud", "OneDrive", "Box", "Sync"]),
   ("Virtualization",
    ["Parallels", "VMware", "VirtualBox", "Virtual", "VM", "Linux",
     "Windows", "Ubuntu"])]

/-- The check `any(keyword.lower() in app_name_lower for keyword in keywords)`. -/
def matchesKeywords (nameLower : String) (kws : List String) : Bool :=
  kws.any (fun kw => pyIn (pyLower kw) nameLower)

/-- The keyword-table scan of `get_app_category`: first category (in table
order) one of whose keywords occurs in the lowered name; "Other" otherwise. -/
def scanCategories : List (String × List String) → String → String
  | [], _ => "Other"
  | (cat, kws) :: rest, nameLower =>
    if matchesKeywords nameLower kws then cat else scanCategories rest nameLower

/-- The classifier `get_app_category(app_name, path)`: override table, then the
case-insensitive "ubuntu" substring rule, then the ordered keyword scan,
then "Other".  The `path` parameter is accepted but never consulted,
exactly as in the source. -/
def get_app_category (app_name : String) (_path : String) : String :=
  match special_cases.lookup app_name with
  | some c => c
  | none =>
    if pyIn "ubuntu" (pyLower app_name) then "Virtualization"
    else scanCategories categoriesTable (pyLower app_name)

/-- The fixed set of category names the classifier can return. -/
def allCategories : List String :=
  ["Development", "Browsers & Internet", "Security & Privacy", "Productivity",
   "Utilities", "Media & Creative", "Cloud Storage", "Virtualization", "Other"]

/-! ## System-app enumerator (`get_system_apps`) -/

/-- The two fixed directory paths scanned by `get_system_apps`. -/
def system_paths : List String :=
  ["/System/Applications", "/System/Applications/Utilities"]

/-- A model of the filesystem as seen by `get_system_apps`: the association
list maps each existing directory to its entry listing; a path absent from
the list does not exist (`os.path.exists` is false). -/
structure FileSys where
  dirs : List (String × List String)
deriving DecidableEq

/-- Adding one element to a Python `set`, modelled as a duplicate-free list:
a no-op when the element is already present. -/
def setAdd (s : List String) (x : String) : List String :=
  if s.contains x then s else s ++ [x]

/-- Python `set.update`: add every element of `xs`. -/
def setUpdate (s : List String) (xs : List String) : List String :=
  xs.foldl setAdd s

/-- The enumerator `get_system_apps()`: for each fixed path that exists, take the entries
ending in ".app", apply `f.replace(".app", "")`, and accumulate them into a
set. -/
def get_system_apps (fs : FileSys) : List String :=
  system_paths.foldl
    (fun acc p =>
      match fs.dirs.lookup p with
      | none => acc
      | some entries =>
        setUpdate acc
          ((entries.filter (fun f => pyEndsWith f ".app")).map
            (fun f => pyReplace f ".app" "")))
    []

/-! ## Inventory fetcher (`get_installed_apps`) -/

/-- One element of the `SPApplicationsDataType` JSON list: each field is
`none` when the corresponding key is absent from the JSON object. -/
structure RawApp where
  nameKey : Option String
  pathKey : Option String
  versionKey : Option String
  obtainedFromKey : Option String
  lastModifiedKey : Option String
deriving DecidableEq

/-- The parsed top-level JSON object: `SPApplicationsDataType` is `none` when
the key is absent (the script then uses `data.get(..., [])`). -/
structure ProfilerData where
  SPApplicationsDataType : Option (List RawApp)
deriving DecidableEq

/-- The record dict built by `get_installed_apps` for each application. -/
structure AppInfo where
  name : String
  path : String
  version : String
  obtained_from : String
  last_modified : String
deriving DecidableEq

/-- The per-entry extraction in `get_installed_apps`: every missing field
defaults to "Unknown". -/
def mkAppInfo (a : RawApp) : AppInfo :=
  { name := a.nameKey.getD "Unknown"
    path := a.pathKey.getD "Unknown"
    version := a.versionKey.getD "Unknown"
    obtained_from := a.obtainedFromKey.getD "Unknown"
    last_modified := a.lastModifiedKey.getD "Unknown" }

/-- Outcome of `subprocess.run(cmd, capture_output=True, text=True)`: either
the invocation itself raises, or it completes with an exit status and
captured standard output.  `subprocess.run` without `check=True` does not
raise on a non-zero exit status. -/
inductive CmdResult where
  | failure (msg : String)
  | success (returncode : Int) (stdout : String)
deriving DecidableEq

/-- The console message printed by the `except` branch of
`get_installed_apps`. -/
def errLog (msg : String) : String :=
  "Error getting installed apps: " ++ msg

/-- The fetcher `get_installed_apps()`, returning the record list together with the list
of console log lines it printed.  `parseJson` models `json.loads`
(an error models a raised `JSONDecodeError`); any raised error — from the
invocation or from parsing — is caught, logged, and turns into `[]`.  The
exit status of a completed invocation is never examined. -/
def get_installed_apps (parseJson : String → Except String ProfilerData) :
    CmdResult → List AppInfo × List String
  | .failure e => ([], [errLog e])
  | .success _ out =>
    match parseJson out with
    | .error e => ([], [errLog e])
    | .ok data => ((data.SPApplicationsDataType.getD []).map mkAppInfo, [])

/-! ## Source formatting and inclusion filter -/

/-- The formatter `format_source(source)`: the `source_map` dict lookup on the lowered
string, with the original string as the default. -/
def format_source (source : String) : String :=
  let sl := pyLower source
  if sl = "mac_app_store" then "App Store"
  else if sl = "identified_developer" then "Verified Dev"
  else if sl = "unknown" then "Unknown"
  else if sl = "apple" then "Apple"
  else source

/-- The `excluded_apps` set of `should_include_app`. -/
def excluded_apps : List String :=
  ["GarageBand", "iMovie", "Keynote", "Numbers", "Pages"]

/-- The `system_prefixes` list of `should_include_app`. -/
def systemPathStarts : List String :=
  ["/System/Library/", "/System/Applications/", "/Library/Apple/"]

/-- The inclusion filter `should_include_app(app)`. -/
def should_include_app (app : AppInfo) : Bool :=
  if excluded_apps.contains app.name then false
  else if pyLower app.obtained_from = "apple" then false
  else if systemPathStarts.any (fun p => pyStartsWith app.path p) then false
  else true

/-! ## Reporter (`main`) -/

/-- The display entry built in `main` for each surviving application. -/
structure Entry where
  name : String
  version : String
  source : String
deriving DecidableEq

def mkEntry (app : AppInfo) : Entry :=
  { name := app.name, version := app.version
    source := format_source app.obtained_from }

/-- The condition of `main`'s loop body:
`app_name not in system_apps and should_include_app(app)`. -/
def includeInMain (sys : List String) (app : AppInfo) : Bool :=
  !(sys.contains app.name) && should_include_app app

/-- Appending an entry to a category's list in the `defaultdict`;
a new category key is created at the end (insertion order). -/
def addToCat (m : List (String × List Entry)) (cat : String) (e : Entry) :
    List (String × List Entry) :=
  match m with
  | [] => [(cat, [e])]
  | (c, es) :: rest =>
    if c = cat then (c, es ++ [e]) :: rest else (c, es) :: addToCat rest cat e

/-- The categorization loop of `main`: build the `categorized_apps` mapping
(as an association list in key-insertion order). -/
def categorize (sys : List String) (apps : List AppInfo) :
    List (String × List Entry) :=
  apps.foldl
    (fun m app =>
      if includeInMain sys app then
        addToCat m (get_app_category app.name app.path) (mkEntry app)
      else m)
    []

/-- Lexicographic (code-point) comparison of character lists: Python's
`<=` on strings. -/
def charListLe : List Char → List Char → Bool
  | [], _ => true
  | _ :: _, [] => false
  | a :: as, b :: bs =>
    if a.toNat < b.toNat then true
    else if b.toNat < a.toNat then false
    else charListLe as bs

def pyStrLe (s t : String) : Bool :=
  charListLe s.data t.data

/-- Stable insertion of `a` into `l`: `a` goes before the first element `b`
with `le a b` (so before later-arriving equals — the stability Python's
`sorted` guarantees). -/
def insertLe (le : α → α → Bool) (a : α) : List α → List α
  | [] => [a]
  | b :: bs => if le a b then a :: b :: bs else b :: insertLe le a bs

/-- Stable insertion sort, modelling Python's `sorted`. -/
def insSort (le : α → α → Bool) : List α → List α
  | [] => []
  | a :: as => insertLe le a (insSort le as)

/-- The comparison of `sorted(categorized_apps.items())`: it compares (category, entries) tuples;
category keys are distinct, so the comparison is decided by the key. -/
def blockLe (b1 b2 : String × List Entry) : Bool :=
  pyStrLe b1.fst b2.fst

/-- The key comparison of `sorted(filtered_apps, key=lambda x: x["name"])`. -/
def entryLe (e1 e2 : Entry) : Bool :=
  pyStrLe e1.name e2.name

/-- The list `filtered_apps = [app for app in apps if app["source"] != "Apple"]`. -/
def surviving (es : List Entry) : List Entry :=
  es.filter (fun e => e.source ≠ "Apple")

/-- The category blocks of the printed report, in print order: sorted
categories; per category, skip when empty (`if apps:`), drop entries whose
formatted source is "Apple", skip when nothing remains (`if filtered_apps:`),
and sort the survivors by name. -/
def reportBlocks (sys : List String) (apps : List AppInfo) :
    List (String × List Entry) :=
  (insSort blockLe (categorize sys apps)).filterMap
    (fun b =>
      if b.snd.isEmpty then none
      else if (surviving b.snd).isEmpty then none
      else some (b.fst, insSort entryLe (surviving b.snd)))

/-- The entry line printed in `main`'s innermost loop. -/
def renderEntry (e : Entry) : String :=
  if e.version ≠ "Unknown" then
    "• " ++ e.name ++ " (v" ++ e.version ++ ") [" ++ e.source ++ "]"
  else
    "• " ++ e.name ++ " [" ++ e.source ++ "]"

/-- The report pipeline with the render-time drop of "Apple"-sourced entries
removed (the hypothetical variant the spec's open question compares against):
identical to `reportBlocks` except that every entry of a nonempty category is
kept and sorted. -/
def reportBlocksNoAppleDrop (sys : List String) (apps : List AppInfo) :
    List (String × List Entry) :=
  (insSort blockLe (categorize sys apps)).filterMap
    (fun b =>
      if b.snd.isEmpty then none
      else some (b.fst, insSort entryLe b.snd))

/-- A `json.loads` behaviour that successfully parses any stdout into a
one-application inventory (used to probe the fetcher's handling of exit
statuses). -/
def parseOkOne : String → Except String ProfilerData :=
  fun _ =>
    Except.ok
      ⟨some [⟨some "FooApp", some "/Applications/Foo.app", some "1.0",
             some "identified_developer", some "2024-01-01"⟩]⟩

/-- A `json.loads` behaviour that raises on any input (malformed output). -/
def parseFail : String → Except String ProfilerData :=
  fun _ => Except.error "Expecting value"

/-- A filesystem in which "/System/Applications" holds a single bundle whose
stem itself contains ".app". -/
def fsWithDotApp : FileSys :=
  ⟨[("/System/Applications", ["my.apple.app"])]⟩

/-! ## Order lemmas for the lexicographic comparison -/

theorem charListLe_total : ∀ s t, charListLe s t = true ∨ charListLe t s = true := by
  intro s
  induction s with
  | nil => intro t; left; rfl
  | cons a as ih =>
    intro t
    cases t with
    | nil => right; rfl
    | cons b bs =>
      simp only [charListLe]
      rcases Nat.lt_trichotomy a.toNat b.toNat with h | h | h
      · left; simp [h]
      · have h1 : ¬ a.toNat < b.toNat := by omega
        have h2 : ¬ b.toNat < a.toNat := by omega
        simpa [h1, h2] using ih bs
      · right; simp [h]

theorem charListLe_trans :
    ∀ s t u, charListLe s t = true → charListLe t u = true → charListLe s u = true := by
  intro s
  induction s with
  | nil => intro t u _ _; rfl
  | cons a as ih =>
    intro t u hst htu
    cases t with
    | nil => simp [charListLe] at hst
    | cons b bs =>
      cases u with
      | nil => simp [charListLe] at htu
      | cons c cs =>
        simp only [charListLe] at hst htu ⊢
        by_cases hab : a.toNat < b.toNat <;> by_cases hba : b.toNat < a.toNat <;>
          by_cases hbc : b.toNat < c.toNat <;> by_cases hcb : c.toNat < b.toNat <;>
          simp [hab, hba, hbc, hcb] at hst htu ⊢ <;>
          first
          | omega
          | (have hac : ¬ a.toNat < c.toNat := by omega
             have hca : ¬ c.toNat < a.toNat := by omega
             simp [hac, hca]
             first
             | exact ih bs cs hst htu
             | exact ⟨by omega, ih bs cs hst htu⟩)

theorem pyStrLe_total (s t : String) : pyStrLe s t = true ∨ pyStrLe t s = true :=
  charListLe_total s.data t.data

theorem pyStrLe_trans {s t u : String} :
    pyStrLe s t = true → pyStrLe t u = true → pyStrLe s u = true :=
  charListLe_trans s.data t.data u.data

/-! ## Insertion-sort lemmas -/

theorem mem_insertLe (le : α → α → Bool) (a x : α) :
    ∀ l, x ∈ insertLe le a l ↔ x = a ∨ x ∈ l := by
  intro l
  induction l with
  | nil => simp [insertLe]
  | cons b bs ih =>
    simp only [insertLe]
    split
    · simp [or_comm, or_left_comm]
    · simp [ih, or_comm, or_left_comm]

theorem mem_insSort (le : α → α → Bool) (x : α) :
    ∀ l, x ∈ insSort le l ↔ x ∈ l := by
  intro l
  induction l with
  | nil => simp [insSort]
  | cons a as ih => simp [insSort, mem_insertLe, ih]

theorem perm_insertLe (le : α → α → Bool) (a : α) :
    ∀ l, (insertLe le a l).Perm (a :: l) := by
  intro l
  induction l with
  | nil => simp [insertLe]
  | cons b bs ih =>
    simp only [insertLe]
    split
    · exact List.Perm.refl _
    · exact (ih.cons b).trans (List.Perm.swap a b bs)

theorem perm_insSort (le : α → α → Bool) : ∀ l, (insSort le l).Perm l := by
  intro l
  induction l with
  | nil => exact List.Perm.refl _
  | cons a as ih => exact (perm_insertLe le a (insSort le as)).trans (ih.cons a)

theorem pairwise_insertLe (le : α → α → Bool)
    (hTot : ∀ a b, le a b = true ∨ le b a = true)
    (hTrans : ∀ a b c, le a b = true → le b c = true → le a c = true) (a : α) :
    ∀ l, l.Pairwise (fun x y => le x y = true) →
      (insertLe le a l).Pairwise (fun x y => le x y = true) := by
  intro l
  induction l with
  | nil => intro _; simp [insertLe]
  | cons b bs ih =>
    intro h
    rw [List.pairwise_cons] at h
    simp only [insertLe]
    split
    · rename_i hab
      rw [List.pairwise_cons]
      constructor
      · intro x hx
        rcases List.mem_cons.mp hx with rfl | hx
        · exact hab
        · exact hTrans a b x hab (h.1 x hx)
      · exact List.pairwise_cons.mpr h
    · rename_i hab
      have hba : le b a = true := by
        rcases hTot a b with h' | h'
        · exact absurd h' hab
        · exact h'
      rw [List.pairwise_cons]
      constructor
      · intro x hx
        rcases (mem_insertLe le a x bs).mp hx with hx | hx
        · exact hx ▸ hba
        · exact h.1 x hx
      · exact ih h.2

theorem pairwise_insSort (le : α → α → Bool)
    (hTot : ∀ a b, le a b = true ∨ le b a = true)
    (hTrans : ∀ a b c, le a b = true → le b c = true → le a c = true) :
    ∀ l : List α, (insSort le l).Pairwise (fun x y => le x y = true) := by
  intro l
  induction l with
  | nil => simp [insSort]
  | cons a as ih => exact pairwise_insertLe le hTot hTrans a _ ih

theorem blockLe_total (b1 b2 : String × List Entry) :
    blockLe b1 b2 = true ∨ blockLe b2 b1 = true :=
  pyStrLe_total b1.fst b2.fst

theorem blockLe_trans (b1 b2 b3 : String × List Entry) :
    blockLe b1 b2 = true → blockLe b2 b3 = true → blockLe b1 b3 = true :=
  fun h1 h2 => pyStrLe_trans h1 h2

theorem entryLe_total (e1 e2 : Entry) : entryLe e1 e2 = true ∨ entryLe e2 e1 = true :=
  pyStrLe_total e1.name e2.name

theorem entryLe_trans (e1 e2 e3 : Entry) :
    entryLe e1 e2 = true → entryLe e2 e3 = true → entryLe e1 e3 = true :=
  fun h1 h2 => pyStrLe_trans h1 h2

/-! ## Classifier lemmas -/

theorem lookup_mem_values [BEq α] (k : α) (v : β) :
    ∀ l : List (α × β), l.lookup k = some v → v ∈ l.map Prod.snd := by
  intro l
  induction l with
  | nil => intro h; simp [List.lookup] at h
  | cons p rest ih =>
    intro h
    rw [List.lookup] at h
    by_cases hk : k == p.fst
    · simp [hk] at h
      simp [h]
    · simp [hk] at h
      simp [ih h]

theorem scanCategories_mem :
    ∀ (tbl : List (String × List String)) (nl : String),
      scanCategories tbl nl ∈ tbl.map Prod.fst ++ ["Other"] := by
  intro tbl
  induction tbl with
  | nil => intro nl; simp [scanCategories]
  | cons b rest ih =>
    intro nl
    obtain ⟨cat, kws⟩ := b
    simp only [scanCategories]
    split
    · simp
    · have := ih nl
      simp at this ⊢
      tauto

theorem scanCategories_first_match :
    ∀ (tbl : List (String × List String)) (nl : String) (i : Nat) (hi : i < tbl.length),
      matchesKeywords nl (tbl.get ⟨i, hi⟩).snd = true →
      (∀ j (hj : j < i), matchesKeywords nl (tbl.get ⟨j, Nat.lt_trans hj hi⟩).snd = false) →
      scanCategories tbl nl = (tbl.get ⟨i, hi⟩).fst := by
  intro tbl
  induction tbl with
  | nil => intro nl i hi; exact absurd hi (Nat.not_lt_zero i)
  | cons b rest ih =>
    intro nl i hi hmatch hnone
    obtain ⟨cat, kws⟩ := b
    cases i with
    | zero =>
      simp only [List.get] at hmatch ⊢
      simp [scanCategories, hmatch]
    | succ i =>
      have h0 : matchesKeywords nl ((cat, kws) : String × List String).snd = false :=
        hnone 0 (Nat.succ_pos i)
      simp only [List.get] at hmatch h0 ⊢
      simp only [scanCategories, h0]
      rw [if_neg (by simp [h0])]
      exact ih nl i (Nat.lt_of_succ_lt_succ hi) hmatch
        (fun j hj => hnone (j + 1) (Nat.succ_lt_succ hj))

theorem scanCategories_all_none :
    ∀ (tbl : List (String × List String)) (nl : String),
      (∀ b ∈ tbl, matchesKeywords nl b.snd = false) →
      scanCategories tbl nl = "Other" := by
  intro tbl
  induction tbl with
  | nil => intro nl _; rfl
  | cons b rest ih =>
    intro nl h
    obtain ⟨cat, kws⟩ := b
    have h0 : matchesKeywords nl ((cat, kws) : String × List String).snd = false :=
      h (cat, kws) (List.mem_cons_self _ _)
    simp only [scanCategories]
    rw [if_neg (by simp at h0; simp [h0])]
    exact ih nl (fun b hb => h b (List.mem_cons_of_mem _ hb))

theorem get_app_category_override {name path c : String}
    (h : special_cases.lookup name = some c) : get_app_category name path = c := by
  simp [get_app_category, h]

theorem get_app_category_ubuntu {name path : String}
    (h1 : special_cases.lookup name = none)
    (h2 : pyIn "ubuntu" (pyLower name) = true) :
    get_app_category name path = "Virtualization" := by
  simp [get_app_category, h1, h2]

theorem get_app_category_scan {name path : String}
    (h1 : special_cases.lookup name = none)
    (h2 : pyIn "ubuntu" (pyLower name) = false) :
    get_app_category name path = scanCategories categoriesTable (pyLower name) := by
  simp [get_app_category, h1, h2]

/-- Every value of the override table is one of the fixed category names. -/
theorem special_values_sub :
    ∀ v ∈ special_cases.map Prod.snd, v ∈ allCategories := by decide

/-- Every key of the keyword table is one of the fixed category names. -/
theorem table_keys_sub :
    ∀ v ∈ categoriesTable.map Prod.fst ++ ["Other"], v ∈ allCategories := by decide

/-! ## Formatter lemma: only a source lowering to "apple" formats to "Apple" -/

theorem format_source_eq_ite (s : String) :
    format_source s =
      (if pyLower s = "mac_app_store" then "App Store"
       else if pyLower s = "identified_developer" then "Verified Dev"
       else if pyLower s = "unknown" then "Unknown"
       else if pyLower s = "apple" then "Apple"
       else s) := rfl

theorem format_source_ne_apple {s : String} (h : pyLower s ≠ "apple") :
    format_source s ≠ "Apple" := by
  by_cases h1 : pyLower s = "mac_app_store"
  · rw [format_source_eq_ite, if_pos h1]; decide
  · by_cases h2 : pyLower s = "identified_developer"
    · rw [format_source_eq_ite, if_neg h1, if_pos h2]; decide
    · by_cases h3 : pyLower s = "unknown"
      · rw [format_source_eq_ite, if_neg h1, if_neg h2, if_pos h3]; decide
      · rw [format_source_eq_ite, if_neg h1, if_neg h2, if_neg h3, if_neg h]
        intro hs
        exact h (by rw [hs]; decide)

theorem format_source_of_apple {s : String} (h : pyLower s = "apple") :
    format_source s = "Apple" := by
  rw [format_source_eq_ite, h]
  rfl

/-! ## Categorization-fold lemmas -/

theorem addToCat_entry_mem (cat : String) (e : Entry) :
    ∀ (m : List (String × List Entry)) b, b ∈ addToCat m cat e →
      ∀ x ∈ b.snd, (∃ b' ∈ m, x ∈ b'.snd) ∨ x = e := by
  intro m
  induction m with
  | nil =>
    intro b hb x hx
    simp [addToCat] at hb
    subst hb
    simp at hx
    exact Or.inr hx
  | cons p rest ih =>
    intro b hb x hx
    obtain ⟨c, es⟩ := p
    simp only [addToCat] at hb
    split at hb
    · rcases List.mem_cons.mp hb with rfl | hb
      · rcases List.mem_append.mp hx with hx | hx
        · exact Or.inl ⟨(c, es), List.mem_cons_self _ _, hx⟩
        · simp at hx
          exact Or.inr hx
      · exact Or.inl ⟨b, List.mem_cons_of_mem _ hb, hx⟩
    · rcases List.mem_cons.mp hb with rfl | hb
      · exact Or.inl ⟨(c, es), List.mem_cons_self _ _, hx⟩
      · rcases ih b hb x hx with ⟨b', hb', hx'⟩ | hx'
        · exact Or.inl ⟨b', List.mem_cons_of_mem _ hb', hx'⟩
        · exact Or.inr hx'

theorem categorize_fold_entries (sys : List String) :
    ∀ (apps : List AppInfo) (m : List (String × List Entry)) b,
      b ∈ apps.foldl
            (fun m app =>
              if includeInMain sys app then
                addToCat m (get_app_category app.name app.path) (mkEntry app)
              else m) m →
      ∀ x ∈ b.snd,
        (∃ b' ∈ m, x ∈ b'.snd) ∨
        ∃ app ∈ apps, includeInMain sys app = true ∧ x = mkEntry app := by
  intro apps
  induction apps with
  | nil =>
    intro m b hb x hx
    exact Or.inl ⟨b, hb, hx⟩
  | cons app rest ih =>
    intro m b hb x hx
    rw [List.foldl_cons] at hb
    rcases ih _ b hb x hx with hacc | ⟨app', happ', hinc', hx'⟩
    · by_cases hinc : includeInMain sys app = true
      · rw [if_pos hinc] at hacc
        obtain ⟨b', hb', hx'⟩ := hacc
        rcases addToCat_entry_mem _ _ m b' hb' x hx' with ⟨b'', hb'', hx''⟩ | hx''
        · exact Or.inl ⟨b'', hb'', hx''⟩
        · exact Or.inr ⟨app, List.mem_cons_self _ _, hinc, hx''⟩
      · rw [if_neg hinc] at hacc
        exact Or.inl hacc
    · exact Or.inr ⟨app', List.mem_cons_of_mem _ happ', hinc', hx'⟩

/-- Every entry of `categorized_apps` arises from an application of the
inventory that passed both the system-app check and the inclusion filter. -/
theorem categorize_entries {sys : List String} {apps : List AppInfo}
    {b : String × List Entry} {x : Entry}
    (hb : b ∈ categorize sys apps) (hx : x ∈ b.snd) :
    ∃ app ∈ apps, includeInMain sys app = true ∧ x = mkEntry app := by
  rcases categorize_fold_entries sys apps [] b hb x hx with ⟨b', hb', _⟩ | h
  · simp at hb'
  · exact h

theorem addToCat_keys (cat : String) (e : Entry) :
    ∀ m : List (String × List Entry),
      (addToCat m cat e).map Prod.fst =
        if cat ∈ m.map Prod.fst then m.map Prod.fst else m.map Prod.fst ++ [cat] := by
  intro m
  induction m with
  | nil => simp [addToCat]
  | cons p rest ih =>
    obtain ⟨c, es⟩ := p
    simp only [addToCat]
    split
    · rename_i hc
      subst hc
      simp
    · rename_i hc
      by_cases hmem : cat ∈ rest.map Prod.fst
      · simp [ih, hmem, hc]
      · simp [ih, hmem, hc, Ne.symm hc]

theorem addToCat_keys_nodup (cat : String) (e : Entry)
    (m : List (String × List Entry)) (h : (m.map Prod.fst).Nodup) :
    ((addToCat m cat e).map Prod.fst).Nodup := by
  rw [addToCat_keys]
  split
  · exact h
  · rename_i hmem
    rw [List.nodup_append]
    refine ⟨h, List.nodup_singleton cat, ?_⟩
    intro a ha hb
    rw [List.mem_singleton] at hb
    subst hb
    exact hmem ha

theorem categorize_keys_nodup (sys : List String) (apps : List AppInfo) :
    ((categorize sys apps).map Prod.fst).Nodup := by
  unfold categorize
  generalize hm : ([] : List (String × List Entry)) = m
  have hmn : (m.map Prod.fst).Nodup := by rw [← hm]; simp
  clear hm
  induction apps generalizing m with
  | nil => simpa using hmn
  | cons app rest ih =>
    rw [List.foldl_cons]
    apply ih
    split
    · exact addToCat_keys_nodup _ _ m hmn
    · exact hmn

/-! ## Report-block lemmas -/

/-- Dissection of membership in `reportBlocks`. -/
theorem reportBlocks_mem {sys : List String} {apps : List AppInfo}
    {blk : String × List Entry} (h : blk ∈ reportBlocks sys apps) :
    ∃ b ∈ categorize sys apps,
      blk.fst = b.fst ∧
      blk.snd = insSort entryLe (surviving b.snd) ∧
      surviving b.snd ≠ [] := by
  unfold reportBlocks at h
  rw [List.mem_filterMap] at h
  obtain ⟨b, hb, hfb⟩ := h
  rw [mem_insSort] at hb
  refine ⟨b, hb, ?_⟩
  split at hfb
  · exact absurd hfb (by simp)
  · split at hfb
    · exact absurd hfb (by simp)
    · rename_i hne
      have := Option.some.inj hfb
      rw [← this]
      refine ⟨rfl, rfl, ?_⟩
      intro hnil
      rw [hnil] at hne
      simp at hne

/-- Every entry printed in the report arises from an inventory record that
passed the system-app check and the inclusion filter, and its formatted
source is not "Apple". -/
theorem reportBlocks_entry {sys : List String} {apps : List AppInfo}
    {blk : String × List Entry} {x : Entry}
    (hb : blk ∈ reportBlocks sys apps) (hx : x ∈ blk.snd) :
    (∃ app ∈ apps, includeInMain sys app = true ∧ x = mkEntry app) ∧
      x.source ≠ "Apple" := by
  obtain ⟨b, hbc, _, hsnd, _⟩ := reportBlocks_mem hb
  rw [hsnd, mem_insSort] at hx
  unfold surviving at hx
  rw [List.mem_filter] at hx
  refine ⟨categorize_entries hbc hx.1, ?_⟩
  simpa using hx.2

/-- If a record passes `includeInMain` then its name is not in the system-app
set and `should_include_app` accepted it. -/
theorem includeInMain_true {sys : List String} {app : AppInfo}
    (h : includeInMain sys app = true) :
    app.name ∉ sys ∧ should_include_app app = true := by
  unfold includeInMain at h
  rw [Bool.and_eq_true, Bool.not_eq_true'] at h
  refine ⟨?_, h.2⟩
  intro hmem
  have hc : sys.contains app.name = true := by simpa using hmem
  rw [h.1] at hc
  exact Bool.false_ne_true hc

/-- A record accepted by `should_include_app` has in particular a source
attribution that does not lower to "apple". -/
theorem should_include_obtained {app : AppInfo}
    (h : should_include_app app = true) : pyLower app.obtained_from ≠ "apple" := by
  intro heq
  rw [should_include_app] at h
  rw [heq] at h
  simp at h

/-- Mapping `Prod.fst` over a `filterMap` whose function preserves first
components yields a sublist of mapping `Prod.fst` over the original. -/
theorem fst_filterMap_sublist {α β γ : Type}
    (f : α × β → Option (α × γ)) (hf : ∀ b y, f b = some y → y.fst = b.fst) :
    ∀ l : List (α × β), ((l.filterMap f).map Prod.fst).Sublist (l.map Prod.fst) := by
  intro l
  induction l with
  | nil => simp
  | cons b bs ih =>
    rw [List.filterMap_cons]
    cases hfb : f b with
    | none =>
      simp only [List.map_cons]
      exact ih.cons b.fst
    | some y =>
      simp only [List.map_cons]
      rw [hf b y hfb]
      exact ih.cons₂ b.fst

/-! ## Set-model lemmas for the enumerator -/

theorem mem_setAdd (s : List String) (x y : String) :
    y ∈ setAdd s x ↔ y ∈ s ∨ y = x := by
  unfold setAdd
  split
  · rename_i hc
    have hx : x ∈ s := by simpa using hc
    constructor
    · exact Or.inl
    · rintro (h | rfl)
      · exact h
      · exact hx
  · simp

theorem mem_setUpdate (y : String) :
    ∀ (xs s : List String), y ∈ setUpdate s xs ↔ y ∈ s ∨ y ∈ xs := by
  intro xs
  induction xs with
  | nil => intro s; simp [setUpdate]
  | cons x xs ih =>
    intro s
    show y ∈ setUpdate (setAdd s x) xs ↔ _
    rw [ih, mem_setAdd]
    simp [or_assoc, or_comm, or_left_comm]

theorem nodup_setAdd {s : List String} (h : s.Nodup) (x : String) :
    (setAdd s x).Nodup := by
  unfold setAdd
  split
  · exact h
  · rename_i hc
    rw [List.nodup_append]
    refine ⟨h, List.nodup_singleton x, ?_⟩
    intro a ha hb
    rw [List.mem_singleton] at hb
    subst hb
    exact hc (by simpa using ha)

theorem nodup_setUpdate :
    ∀ (xs s : List String), s.Nodup → (setUpdate s xs).Nodup := by
  intro xs
  induction xs with
  | nil => intro s h; exact h
  | cons x xs ih => intro s h; exact ih _ (nodup_setAdd h x)

example : pyLower "Apple" = "apple" := by decide
example : pyReplace "my.apple.app" ".app" "" = "myle" := by decide
example : pyEndsWith "my.apple.app" ".app" = true := by decide
example : get_app_category "Obsidian" "/Applications/Obsidian.app" = "Productivity" := by decide
example : get_app_category "Code Browser" "/x" = "Development" := by decide
example : get_app_category "vUbuntu 22.04" "/x" = "Virtualization" := by decide
example : get_app_category "Zzzz" "/x" = "Other" := by decide
example :
    reportBlocks []
      [{ name := "Obsidian", path := "/Applications/Obsidian.app",
         version := "1.2.0", obtained_from := "identified_developer",
         last_modified := "x" }] =
    [("Productivity",
      [{ name := "Obsidian", version := "1.2.0", source := "Verified Dev" }])] := by
  decide
example :
    get_system_apps ⟨[("/System/Applications", ["my.apple.app", "Mail.app", "x.txt"])]⟩ =
      ["myle", "Mail"] := by decide

/-! ## Claims -/

/-- C1: the classifier is a total deterministic function: for every
(name, path) input it returns exactly one of the fixed CategoryName values,
resolving in order: the exact override table first (override entries always
win over keyword rules), then the case-insensitive "ubuntu" substring rule
returning "Virtualization", then the ordered keyword-table scan, and "Other"
if no rule matched. -/
theorem C1_classifier_total_and_ordered (name path : String) :
    get_app_category name path ∈ allCategories ∧
    (∀ c, special_cases.lookup name = some c → get_app_category name path = c) ∧
    (special_cases.lookup name = none → pyIn "ubuntu" (pyLower name) = true →
      get_app_category name path = "Virtualization") ∧
    (special_cases.lookup name = none → pyIn "ubuntu" (pyLower name) = false →
      get_app_category name path = scanCategories categoriesTable (pyLower name)) ∧
    (special_cases.lookup name = none → pyIn "ubuntu" (pyLower name) = false →
      (∀ b ∈ categoriesTable, matchesKeywords (pyLower name) b.snd = false) →
      get_app_category name path = "Other") := by
  refine ⟨?_, ?_, ?_, ?_, ?_⟩
  · cases hl : special_cases.lookup name with
    | some c =>
      rw [get_app_category_override hl]
      exact special_values_sub c (lookup_mem_values name c _ hl)
    | none =>
      cases hu : pyIn "ubuntu" (pyLower name) with
      | true =>
        rw [get_app_category_ubuntu hl hu]
        decide
      | false =>
        rw [get_app_category_scan hl hu]
        exact table_keys_sub _ (scanCategories_mem _ _)
  · intro c hc
    exact get_app_category_override hc
  · intro h1 h2
    exact get_app_category_ubuntu h1 h2
  · intro h1 h2
    exact get_app_category_scan h1 h2
  · intro h1 h2 h3
    rw [get_app_category_scan h1 h2]
    exact scanCategories_all_none _ _ h3

/-- Witness for C1: the override entry for "Obsidian" wins, a name containing
"ubuntu" case-insensitively falls to "Virtualization", and an unmatched name
falls through to "Other". -/
theorem C1_classifier_witness :
    get_app_category "Obsidian" "/Applications/Obsidian.app" = "Productivity" ∧
    get_app_category "vUbuntu 22.04" "/a" = "Virtualization" ∧
    get_app_category "Zzzz" "/b" = "Other" :=
  ⟨(C1_classifier_total_and_ordered "Obsidian" "/Applications/Obsidian.app").2.1
      "Productivity" (by decide),
   (C1_classifier_total_and_ordered "vUbuntu 22.04" "/a").2.2.1 (by decide) (by decide),
   (C1_classifier_total_and_ordered "Zzzz" "/b").2.2.2.2 (by decide) (by decide) (by decide)⟩

/-- C2: in the keyword-table scan, table order is the tie-break: when no
override or "ubuntu" rule applies, the classifier returns the category of the
first table position whose keywords match the lowered name. -/
theorem C2_keyword_table_order (name path : String) (i : Nat)
    (hi : i < categoriesTable.length)
    (hover : special_cases.lookup name = none)
    (hub : pyIn "ubuntu" (pyLower name) = false)
    (hmatch : matchesKeywords (pyLower name) (categoriesTable.get ⟨i, hi⟩).snd = true)
    (hfirst : ∀ j (hj : j < i),
      matchesKeywords (pyLower name) (categoriesTable.get ⟨j, Nat.lt_trans hj hi⟩).snd = false) :
    get_app_category name path = (categoriesTable.get ⟨i, hi⟩).fst := by
  rw [get_app_category_scan hover hub]
  exact scanCategories_first_match categoriesTable (pyLower name) i hi hmatch hfirst

/-- Witness for C2: "Code Browser" matches both the "Development" keywords
(position 0, via "Code") and the "Browsers & Internet" keywords (position 1,
via "Browser"), and the classifier returns "Development". -/
theorem C2_keyword_table_order_witness :
    get_app_category "Code Browser" "/x" = "Development" ∧
    matchesKeywords (pyLower "Code Browser")
      (categoriesTable.get ⟨1, by decide⟩).snd = true :=
  ⟨C2_keyword_table_order "Code Browser" "/x" 0 (by decide) (by decide) (by decide)
      (by decide) (fun j hj => absurd hj (Nat.not_lt_zero j)),
   by decide⟩

/-- C9: the classifier's output does not depend on the path argument. -/
theorem C9_classifier_path_inert (name p1 p2 : String) :
    get_app_category name p1 = get_app_category name p2 := rfl

/-- C3: an application whose name is in the System-App Enumerator's result
set never contributes an entry to the rendered report, regardless of its
classification or what the inclusion filter would decide. -/
theorem C3_system_apps_not_reported (sys : List String) (apps : List AppInfo)
    (name : String) (hname : name ∈ sys)
    (blk : String × List Entry) (hblk : blk ∈ reportBlocks sys apps)
    (e : Entry) (he : e ∈ blk.snd) :
    e.name ≠ name := by
  obtain ⟨⟨app, _, hinc, rfl⟩, _⟩ := reportBlocks_entry hblk he
  have hnot := (includeInMain_true hinc).1
  intro hcontra
  apply hnot
  have : app.name = name := hcontra
  rw [this]
  exact hname

/-- Witness for C3: with "Safari" in the system-app set and an Obsidian
record in the inventory, the report's sole entry is not named "Safari". -/
theorem C3_system_apps_not_reported_witness :
    ({ name := "Obsidian", version := "1.2.0", source := "Verified Dev" } : Entry).name
      ≠ "Safari" :=
  C3_system_apps_not_reported ["Safari"]
    [{ name := "Obsidian", path := "/Applications/Obsidian.app",
       version := "1.2.0", obtained_from := "identified_developer",
       last_modified := "2024-01-01" }]
    "Safari" (by decide)
    ("Productivity", [{ name := "Obsidian", version := "1.2.0", source := "Verified Dev" }])
    (by decide)
    { name := "Obsidian", version := "1.2.0", source := "Verified Dev" }
    (by decide)

/-- C4: a record whose source attribution lowers to "apple" is rejected by
the inclusion filter, and no entry of any rendered report equals the display
entry such a record would produce. -/
theorem C4_apple_source_excluded (rec : AppInfo)
    (h : pyLower rec.obtained_from = "apple") :
    should_include_app rec = false ∧
    ∀ (sys : List String) (apps : List AppInfo) (blk : String × List Entry),
      blk ∈ reportBlocks sys apps → ∀ e ∈ blk.snd, e ≠ mkEntry rec := by
  constructor
  · unfold should_include_app
    by_cases hc : excluded_apps.contains rec.name = true
    · rw [if_pos hc]
    · rw [if_neg hc, if_pos h]
  · intro sys apps blk hblk e he hcontra
    apply (reportBlocks_entry hblk he).2
    rw [hcontra]
    show format_source rec.obtained_from = "Apple"
    exact format_source_of_apple h

/-- Witness for C4: a record sourced "Apple" whose name is not in the
exclusion list and whose path has no system-owned prefix is still rejected,
and the one report entry of a sample run differs from its display entry. -/
theorem C4_apple_source_excluded_witness :
    should_include_app
      { name := "SomeTool", path := "/Applications/SomeTool.app",
        version := "12.0", obtained_from := "Apple", last_modified := "x" } = false ∧
    ({ name := "Obsidian", version := "1.2.0", source := "Verified Dev" } : Entry) ≠
      mkEntry { name := "SomeTool", path := "/Applications/SomeTool.app",
                version := "12.0", obtained_from := "Apple", last_modified := "x" } :=
  ⟨(C4_apple_source_excluded _ (by decide)).1,
   (C4_apple_source_excluded
      { name := "SomeTool", path := "/Applications/SomeTool.app",
        version := "12.0", obtained_from := "Apple", last_modified := "x" }
      (by decide)).2
     []
     [{ name := "Obsidian", path := "/Applications/Obsidian.app",
        version := "1.2.0", obtained_from := "identified_developer",
        last_modified := "2024-01-01" }]
     ("Productivity", [{ name := "Obsidian", version := "1.2.0", source := "Verified Dev" }])
     (by decide)
     { name := "Obsidian", version := "1.2.0", source := "Verified Dev" }
     (by decide)⟩

/-- Counterexample for C5: the fetcher never examines the exit status.  A
run of the external command that exits with status 1 but whose stdout still
parses yields a non-empty record sequence and logs nothing, contradicting
"for every failure — including non-zero exit status — the Fetcher logs the
error and returns the empty sequence". -/
theorem C5_counterexample :
    (get_installed_apps parseOkOne (CmdResult.success 1 "ignored")).fst ≠ [] ∧
    (get_installed_apps parseOkOne (CmdResult.success 1 "ignored")).snd = [] := by
  constructor
  · decide
  · rfl

/-- C5 (amended): an invocation error or unparseable output is caught,
logged to the console, and yields the empty record sequence; the exit status
of a completed invocation is never consulted — the result is the same for
any two exit statuses. -/
theorem C5_fetcher_failure_semantics :
    (∀ pj e, get_installed_apps pj (CmdResult.failure e) = ([], [errLog e])) ∧
    (∀ pj rc out e, pj out = Except.error e →
      get_installed_apps pj (CmdResult.success rc out) = ([], [errLog e])) ∧
    (∀ pj rc rc' out,
      get_installed_apps pj (CmdResult.success rc out) =
        get_installed_apps pj (CmdResult.success rc' out)) := by
  refine ⟨fun pj e => rfl, fun pj rc out e h => ?_, fun pj rc rc' out => rfl⟩
  simp [get_installed_apps, h]

/-- Witness for C5 (amended): malformed output on a successful invocation is
logged and yields no records. -/
theorem C5_fetcher_failure_semantics_witness :
    get_installed_apps parseFail (CmdResult.success 0 "not json") =
      ([], [errLog "Expecting value"]) :=
  C5_fetcher_failure_semantics.2.1 parseFail 0 "not json" "Expecting value" rfl

/-- Counterexample for C6: the enumerator applies `replace(".app", "")`,
which removes every occurrence of ".app", not only the trailing bundle
suffix: the entry "my.apple.app" yields "myle", and the suffix-stripped name
"my.apple" is not in the result. -/
theorem C6_counterexample :
    "my.apple" ∉ get_system_apps fsWithDotApp ∧
    "myle" ∈ get_system_apps fsWithDotApp := by
  constructor
  · decide
  · decide

/-- Membership after one accumulation step of the enumerator. -/
theorem mem_enum_step (acc es : List String) (name : String) :
    name ∈ setUpdate acc
        ((es.filter (fun f => pyEndsWith f ".app")).map
          (fun f => pyReplace f ".app" "")) ↔
      name ∈ acc ∨ ∃ f ∈ es, pyEndsWith f ".app" = true ∧ name = pyReplace f ".app" "" := by
  rw [mem_setUpdate]
  apply or_congr Iff.rfl
  rw [List.mem_map]
  constructor
  · rintro ⟨a, haf, heq⟩
    rw [List.mem_filter] at haf
    exact ⟨a, haf.1, haf.2, heq.symm⟩
  · rintro ⟨f, hf, he, heq⟩
    exact ⟨f, List.mem_filter.mpr ⟨hf, he⟩, heq.symm⟩

/-- C6 (amended): the enumerator's result is duplicate-free and contains
exactly, for each fixed path that exists, the directory entries ending in
".app" with every occurrence of ".app" removed; paths that do not exist
contribute nothing and raise no error. -/
theorem C6_enumerator_characterization (fs : FileSys) :
    (get_system_apps fs).Nodup ∧
    (∀ name, name ∈ get_system_apps fs ↔
      ∃ p ∈ system_paths, ∃ es, fs.dirs.lookup p = some es ∧
        ∃ f ∈ es, pyEndsWith f ".app" = true ∧ name = pyReplace f ".app" "") := by
  have hunfold :
      get_system_apps fs =
        (fun acc p =>
          match fs.dirs.lookup p with
          | none => acc
          | some entries =>
            setUpdate acc
              ((entries.filter (fun f => pyEndsWith f ".app")).map
                (fun f => pyReplace f ".app" "")))
          ((fun acc p =>
            match fs.dirs.lookup p with
            | none => acc
            | some entries =>
              setUpdate acc
                ((entries.filter (fun f => pyEndsWith f ".app")).map
                  (fun f => pyReplace f ".app" "")))
            [] "/System/Applications")
          "/System/Applications/Utilities" := rfl
  constructor
  · rw [hunfold]
    cases h1 : fs.dirs.lookup "/System/Applications" <;>
      cases h2 : fs.dirs.lookup "/System/Applications/Utilities" <;>
      simp only [h1, h2] <;>
      first
      | exact List.nodup_nil
      | exact nodup_setUpdate _ _ List.nodup_nil
      | exact nodup_setUpdate _ _ (nodup_setUpdate _ _ List.nodup_nil)
  · intro name
    rw [hunfold]
    simp only [system_paths, List.mem_cons, List.not_mem_nil, or_false,
      exists_eq_or_imp, exists_eq_left]
    cases h1 : fs.dirs.lookup "/System/Applications" <;>
      cases h2 : fs.dirs.lookup "/System/Applications/Utilities" <;>
      simp [mem_enum_step]

/-- C7: category blocks appear in strictly increasing lexicographic order of
category name, entries within a block are sorted lexicographically by
application name, and every printed block is nonempty (a category with no
surviving entries produces no block). -/
theorem C7_report_ordering (sys : List String) (apps : List AppInfo) :
    ((reportBlocks sys apps).map Prod.fst).Pairwise
      (fun a b => pyStrLe a b = true ∧ a ≠ b) ∧
    (∀ blk, blk ∈ reportBlocks sys apps →
      blk.snd.Pairwise (fun e1 e2 => pyStrLe e1.name e2.name = true)) ∧
    (∀ blk, blk ∈ reportBlocks sys apps → blk.snd ≠ []) := by
  refine ⟨?_, ?_, ?_⟩
  · have hsorted :
        (insSort blockLe (categorize sys apps)).Pairwise
          (fun x y => blockLe x y = true) :=
      pairwise_insSort blockLe blockLe_total blockLe_trans _
    have hkeys :
        ((insSort blockLe (categorize sys apps)).map Prod.fst).Pairwise
          (fun a b => pyStrLe a b = true) :=
      hsorted.map Prod.fst (fun a b h => h)
    have hnd : ((insSort blockLe (categorize sys apps)).map Prod.fst).Nodup := by
      have hp := (perm_insSort blockLe (categorize sys apps)).map Prod.fst
      exact hp.nodup_iff.mpr (categorize_keys_nodup sys apps)
    have hcomb := hkeys.and hnd
    have hsub :
        ((reportBlocks sys apps).map Prod.fst).Sublist
          ((insSort blockLe (categorize sys apps)).map Prod.fst) := by
      unfold reportBlocks
      apply fst_filterMap_sublist
      intro b y hby
      split at hby
      · exact absurd hby (by simp)
      · split at hby
        · exact absurd hby (by simp)
        · rw [← Option.some.inj hby]
    exact hcomb.sublist hsub
  · intro blk hblk
    obtain ⟨b, _, _, hsnd, _⟩ := reportBlocks_mem hblk
    rw [hsnd]
    exact pairwise_insSort entryLe entryLe_total entryLe_trans _
  · intro blk hblk
    obtain ⟨b, _, _, hsnd, hne⟩ := reportBlocks_mem hblk
    intro hnil
    apply hne
    rw [hsnd] at hnil
    have hperm := perm_insSort entryLe (surviving b.snd)
    rw [hnil] at hperm
    exact hperm.symm.eq_nil

/-- Witness for C7: a two-application run produces the blocks "Development"
then "Productivity", each nonempty and internally sorted. -/
theorem C7_report_ordering_witness :
    (("Development", [{ name := "Code Browser", version := "2.0",
                        source := "Verified Dev" }]) :
        String × List Entry).snd ≠ [] ∧
    (("Productivity", [{ name := "Obsidian", version := "1.2.0",
                         source := "Verified Dev" }]) :
        String × List Entry).snd.Pairwise
      (fun e1 e2 => pyStrLe e1.name e2.name = true) :=
  ⟨(C7_report_ordering []
      [{ name := "Code Browser", path := "/Applications/CB.app",
         version := "2.0", obtained_from := "identified_developer",
         last_modified := "x" },
       { name := "Obsidian", path := "/Applications/Obsidian.app",
         version := "1.2.0", obtained_from := "identified_developer",
         last_modified := "x" }]).2.2
      ("Development", [{ name := "Code Browser", version := "2.0",
                         source := "Verified Dev" }])
      (by decide),
   (C7_report_ordering []
      [{ name := "Code Browser", path := "/Applications/CB.app",
         version := "2.0", obtained_from := "identified_developer",
         last_modified := "x" },
       { name := "Obsidian", path := "/Applications/Obsidian.app",
         version := "1.2.0", obtained_from := "identified_developer",
         last_modified := "x" }]).2.1
      ("Productivity", [{ name := "Obsidian", version := "1.2.0",
                          source := "Verified Dev" }])
      (by decide)⟩

/-- C8: an entry whose version is "Unknown" renders without a version
clause, and any other version renders with "(v<version>)". -/
theorem C8_entry_line_format (e : Entry) :
    (e.version = "Unknown" →
      renderEntry e = "• " ++ e.name ++ " [" ++ e.source ++ "]") ∧
    (e.version ≠ "Unknown" →
      renderEntry e = "• " ++ e.name ++ " (v" ++ e.version ++ ") [" ++ e.source ++ "]") := by
  constructor
  · intro h
    unfold renderEntry
    rw [if_neg (by simp [h])]
  · intro h
    unfold renderEntry
    rw [if_pos h]

/-- Witness for C8: both rendering shapes at concrete entries. -/
theorem C8_entry_line_format_witness :
    renderEntry { name := "vUbuntu 22.04", version := "Unknown", source := "Unknown" } =
      "• vUbuntu 22.04 [Unknown]" ∧
    renderEntry { name := "Obsidian", version := "1.2.0", source := "Verified Dev" } =
      "• Obsidian (v1.2.0) [Verified Dev]" := by
  constructor
  · rw [(C8_entry_line_format
      { name := "vUbuntu 22.04", version := "Unknown", source := "Unknown" }).1 rfl]
    decide
  · rw [(C8_entry_line_format
      { name := "Obsidian", version := "1.2.0", source := "Verified Dev" }).2 (by decide)]
    decide

/-- C10: the render-time drop of entries whose formatted source is "Apple"
is a no-op: the inclusion filter never lets a record through whose formatted
source is "Apple", so the report equals the report built without that drop. -/
theorem C10_render_apple_drop_noop :
    (∀ app : AppInfo, should_include_app app = true →
      format_source app.obtained_from ≠ "Apple") ∧
    (∀ (sys : List String) (apps : List AppInfo),
      reportBlocks sys apps = reportBlocksNoAppleDrop sys apps) := by
  have hfmt : ∀ app : AppInfo, should_include_app app = true →
      format_source app.obtained_from ≠ "Apple" :=
    fun app h => format_source_ne_apple (should_include_obtained h)
  refine ⟨hfmt, ?_⟩
  intro sys apps
  unfold reportBlocks reportBlocksNoAppleDrop
  apply List.filterMap_congr
  intro b hb
  rw [mem_insSort] at hb
  have hall : surviving b.snd = b.snd := by
    unfold surviving
    rw [List.filter_eq_self]
    intro e he
    obtain ⟨app, _, hinc, rfl⟩ := categorize_entries hb he
    have h2 := (includeInMain_true hinc).2
    show decide (format_source app.obtained_from ≠ "Apple") = true
    rw [decide_eq_true_eq]
    exact hfmt app h2
  rw [hall]
  cases hbe : b.snd.isEmpty <;> simp [hbe]

/-- Witness for C10: a record accepted by the filter formats to a
non-"Apple" source, and a sample run's report is unchanged without the
render-time drop. -/
theorem C10_render_apple_drop_noop_witness :
    format_source "identified_developer" ≠ "Apple" ∧
    reportBlocks []
        [{ name := "Obsidian", path := "/Applications/Obsidian.app",
           version := "1.2.0", obtained_from := "identified_developer",
           last_modified := "x" }] =
      reportBlocksNoAppleDrop []
        [{ name := "Obsidian", path := "/Applications/Obsidian.app",
           version := "1.2.0", obtained_from := "identified_developer",
           last_modified := "x" }] :=
  ⟨C10_render_apple_drop_noop.1
      { name := "Obsidian", path := "/Applications/Obsidian.app",
        version := "1.2.0", obtained_from := "identified_developer",
        last_modified := "x" } (by decide),
   C10_render_apple_drop_noop.2 [] _⟩
